import Mathlib

/-!
Verification development for `ceviche_utilities.py`, the utility module of an
inverse-design workflow.  Two-dimensional numeric arrays are embedded as a
structure carrying explicit dimensions together with a total entry function
over the real numbers; floating-point arithmetic is modelled by exact real
arithmetic.  Python slicing semantics (in particular the `[radius:-radius]`
crop of the blur operator) is modelled exactly, including the degenerate
`radius = 0` behaviour where the stop index `-0` denotes `0` and the slice is
empty.  The file-producing `animate` function is modelled by its trace of
filesystem effects.
-/

noncomputable section

/-- A two-dimensional real array: explicit row and column counts together with
a total entry function.  Entries at indices outside the stated dimensions are
irrelevant padding; all operators below are driven by the in-range entries. -/
structure Arr where
  rows : ℕ
  cols : ℕ
  entry : ℕ → ℕ → ℝ

/-- Embedding of `mask_combine_rho(rho, bg_rho, design_region)`:
`rho*design_region + bg_rho*(design_region == 0).astype(float)` element-wise.
The output inherits the dimensions of `rho` (numpy broadcasting of
equal-shape operands). -/
def mask_combine_rho (rho bg_rho design_region : Arr) : Arr where
  rows := rho.rows
  cols := rho.cols
  entry i j :=
    rho.entry i j * design_region.entry i j +
      bg_rho.entry i j * (if design_region.entry i j = 0 then 1 else 0)

/-- Embedding of `operator_proj(rho, eta, beta, N)`: the python `for i in
range(N)` loop, each pass replacing the whole array by
`(tanh(beta*eta) + tanh(beta*(rho - eta))) / (tanh(beta*eta) + tanh(beta*(1 - eta)))`
applied element-wise.  The python defaults are `eta=0.5`, `beta=100`, `N=1`. -/
def operator_proj (rho : Arr) (eta beta : ℝ) (N : ℕ) : Arr :=
  (List.range N).foldl
    (fun r _ =>
      { rows := r.rows
        cols := r.cols
        entry := fun i j =>
          (Real.tanh (beta * eta) + Real.tanh (beta * (r.entry i j - eta))) /
            (Real.tanh (beta * eta) + Real.tanh (beta * (1 - eta))) })
    rho

/-- The scalar projection mapping
`f(x) = (tanh(beta*eta) + tanh(beta*(x-eta))) / (tanh(beta*eta) + tanh(beta*(1-eta)))`
named by the specification. -/
def projF (eta beta x : ℝ) : ℝ :=
  (Real.tanh (beta * eta) + Real.tanh (beta * (x - eta))) /
    (Real.tanh (beta * eta) + Real.tanh (beta * (1 - eta)))

/-- Denominator of the projection mapping for fixed `eta` and `beta`. -/
def projDen (eta beta : ℝ) : ℝ :=
  Real.tanh (beta * eta) + Real.tanh (beta * (1 - eta))

/-- Infimum of the projection mapping's output range: the limit of the formula
as the input tends to negative infinity. -/
def projLo (eta beta : ℝ) : ℝ :=
  (Real.tanh (beta * eta) - 1) / projDen eta beta

/-- Supremum of the projection mapping's output range: the limit of the
formula as the input tends to positive infinity. -/
def projHi (eta beta : ℝ) : ℝ :=
  (Real.tanh (beta * eta) + 1) / projDen eta beta

theorem operator_proj_succ (rho : Arr) (eta beta : ℝ) (N : ℕ) :
    operator_proj rho eta beta (N + 1) =
      { rows := (operator_proj rho eta beta N).rows
        cols := (operator_proj rho eta beta N).cols
        entry := fun i j =>
          projF eta beta ((operator_proj rho eta beta N).entry i j) } := by
  unfold operator_proj
  rw [List.range_succ, List.foldl_append]
  rfl

theorem operator_proj_eq_iter (rho : Arr) (eta beta : ℝ) (N : ℕ) :
    operator_proj rho eta beta N =
      { rows := rho.rows
        cols := rho.cols
        entry := fun i j => (projF eta beta)^[N] (rho.entry i j) } := by
  induction N with
  | zero => rfl
  | succ n ih =>
      rw [operator_proj_succ, ih]
      simp only [Function.iterate_succ_apply']

theorem operator_proj_entry (rho : Arr) (eta beta : ℝ) (N i j : ℕ) :
    (operator_proj rho eta beta N).entry i j =
      (projF eta beta)^[N] (rho.entry i j) := by
  rw [operator_proj_eq_iter]

theorem operator_proj_rows (rho : Arr) (eta beta : ℝ) (N : ℕ) :
    (operator_proj rho eta beta N).rows = rho.rows := by
  rw [operator_proj_eq_iter]

theorem operator_proj_cols (rho : Arr) (eta beta : ℝ) (N : ℕ) :
    (operator_proj rho eta beta N).cols = rho.cols := by
  rw [operator_proj_eq_iter]

/-- The pixel test of `skimage.draw.circle(radius, radius, radius+1)`: the
kernel cell `(i, j)` lies inside the rasterized disk of radius `radius+1`
centered at `(radius, radius)` (strict inequality, following the ellipse
rasterization rule). -/
def inKernelDisk (radius i j : ℕ) : Prop :=
  ((i : ℤ) - radius) ^ 2 + ((j : ℤ) - radius) ^ 2 < ((radius : ℤ) + 1) ^ 2

instance (radius i j : ℕ) : Decidable (inKernelDisk radius i j) := by
  unfold inKernelDisk
  infer_instance

/-- Index set of the `(2*radius+1) x (2*radius+1)` kernel array. -/
def kernelIdx (radius : ℕ) : Finset (ℕ × ℕ) :=
  Finset.range (2 * radius + 1) ×ˢ Finset.range (2 * radius + 1)

/-- Number of kernel cells set to `1` by `kernel[rr, cc] = 1`, which is also
the value of `kernel.sum()` before normalization. -/
def kernelCount (radius : ℕ) : ℕ :=
  ((kernelIdx radius).filter fun p => inKernelDisk radius p.1 p.2).card

/-- Embedding of `_create_blur_kernel(radius)`: a `(2*radius+1) x (2*radius+1)`
zero array with ones written at the disk coordinates, divided by its sum. -/
def create_blur_kernel (radius : ℕ) : Arr where
  rows := 2 * radius + 1
  cols := 2 * radius + 1
  entry i j := (if inKernelDisk radius i j then 1 else 0) / (kernelCount radius : ℝ)

/-- Full-mode two-dimensional convolution, as computed by
`autograd.scipy.signal.convolve(rho, kernel, mode='full')`:
`out[i, j] = sum_{p, q} rho[p, q] * kernel[i-p, j-q]` over the valid kernel
indices, with output dimensions `rows + krows - 1` by `cols + kcols - 1`. -/
def convFull (a k : Arr) : Arr where
  rows := a.rows + k.rows - 1
  cols := a.cols + k.cols - 1
  entry i j :=
    ∑ p ∈ Finset.range a.rows, ∑ q ∈ Finset.range a.cols,
      a.entry p q *
        (if p ≤ i ∧ i - p < k.rows ∧ q ≤ j ∧ j - q < k.cols then
          k.entry (i - p) (j - q) else 0)

/-- Length of the python slice `x[radius:-radius]` applied to an axis of
length `len`: the start index is `radius` and the stop index `-radius` denotes
`len - radius` when `radius > 0` but denotes `0` when `radius = 0`. -/
def pysliceLen (radius len : ℕ) : ℕ :=
  (if radius = 0 then 0 else len - radius) - radius

/-- The crop `[radius:-radius, radius:-radius]` applied after each
convolution pass, with exact python slicing semantics on both axes. -/
def pycrop (radius : ℕ) (a : Arr) : Arr where
  rows := pysliceLen radius a.rows
  cols := pysliceLen radius a.cols
  entry i j := a.entry (i + radius) (j + radius)

/-- Embedding of `operator_blur(rho, radius, N)`: the kernel is built once
from the radius, then the python `for i in range(N)` loop replaces the array
by the cropped full convolution with that kernel on each pass. -/
def operator_blur (rho : Arr) (radius : ℕ) (N : ℕ) : Arr :=
  (List.range N).foldl
    (fun r _ => pycrop radius (convFull r (create_blur_kernel radius))) rho

/-- One pass of the blur operator: full-mode convolution with the
radius-derived kernel followed by the `[radius:-radius, radius:-radius]`
crop. -/
def blurStep (radius : ℕ) (a : Arr) : Arr :=
  pycrop radius (convFull a (create_blur_kernel radius))

/-- Embedding of `epsr_parameterization(...)`: combine, blur, project,
re-combine, then rescale linearly into `[epsr_min, epsr_max]`. -/
def epsr_parameterization (rho bg_rho design_region : Arr)
    (epsr_min epsr_max : ℝ) (radius N_blur : ℕ) (beta eta : ℝ)
    (N_proj : ℕ) : Arr :=
  let rho1 := mask_combine_rho rho bg_rho design_region
  let rho2 := operator_blur rho1 radius N_blur
  let rho3 := operator_proj rho2 eta beta N_proj
  let rho4 := mask_combine_rho rho3 bg_rho design_region
  { rows := rho4.rows
    cols := rho4.cols
    entry := fun i j => epsr_min + (epsr_max - epsr_min) * rho4.entry i j }

theorem operator_blur_succ (rho : Arr) (radius N : ℕ) :
    operator_blur rho radius (N + 1) =
      blurStep radius (operator_blur rho radius N) := by
  unfold operator_blur
  rw [List.range_succ, List.foldl_append]
  rfl

theorem operator_blur_eq_iter (rho : Arr) (radius N : ℕ) :
    operator_blur rho radius N = (blurStep radius)^[N] rho := by
  induction N with
  | zero => rfl
  | succ n ih => rw [operator_blur_succ, ih, Function.iterate_succ_apply']

theorem blurStep_rows (radius : ℕ) (hr : 1 ≤ radius) (a : Arr) :
    (blurStep radius a).rows = a.rows := by
  simp only [blurStep, pycrop, convFull, create_blur_kernel, pysliceLen]
  have : radius ≠ 0 := by omega
  simp only [this, if_false]
  omega

theorem blurStep_cols (radius : ℕ) (hr : 1 ≤ radius) (a : Arr) :
    (blurStep radius a).cols = a.cols := by
  simp only [blurStep, pycrop, convFull, create_blur_kernel, pysliceLen]
  have : radius ≠ 0 := by omega
  simp only [this, if_false]
  omega

theorem operator_blur_rows (rho : Arr) (radius N : ℕ) (hr : 1 ≤ radius) :
    (operator_blur rho radius N).rows = rho.rows := by
  rw [operator_blur_eq_iter]
  induction N with
  | zero => rfl
  | succ n ih => rw [Function.iterate_succ_apply', blurStep_rows radius hr, ih]

theorem operator_blur_cols (rho : Arr) (radius N : ℕ) (hr : 1 ≤ radius) :
    (operator_blur rho radius N).cols = rho.cols := by
  rw [operator_blur_eq_iter]
  induction N with
  | zero => rfl
  | succ n ih => rw [Function.iterate_succ_apply', blurStep_cols radius hr, ih]

theorem tanh_lt_one (x : ℝ) : Real.tanh x < 1 := by
  rw [Real.tanh_eq_sinh_div_cosh, div_lt_one (Real.cosh_pos x)]
  exact Real.sinh_lt_cosh x

theorem neg_one_lt_tanh (x : ℝ) : -1 < Real.tanh x := by
  rw [Real.tanh_eq_sinh_div_cosh, lt_div_iff₀ (Real.cosh_pos x)]
  nlinarith [Real.cosh_add_sinh x, Real.exp_pos x]

theorem tanh_mono {x y : ℝ} (h : x ≤ y) : Real.tanh x ≤ Real.tanh y := by
  rw [← sub_nonneg, Real.tanh_eq_sinh_div_cosh, Real.tanh_eq_sinh_div_cosh,
    div_sub_div _ _ (ne_of_gt (Real.cosh_pos y)) (ne_of_gt (Real.cosh_pos x)),
    ← Real.sinh_sub]
  exact div_nonneg (Real.sinh_nonneg_iff.mpr (by linarith))
    (mul_pos (Real.cosh_pos y) (Real.cosh_pos x)).le

theorem tanh_pos_of_pos {x : ℝ} (h : 0 < x) : 0 < Real.tanh x := by
  rw [Real.tanh_eq_sinh_div_cosh]
  exact div_pos (Real.sinh_pos_iff.mpr h) (Real.cosh_pos x)

theorem projDen_pos {eta beta : ℝ} (h0 : 0 < eta) (h1 : eta < 1)
    (hb : 0 < beta) : 0 < projDen eta beta := by
  unfold projDen
  have t1 : 0 < Real.tanh (beta * eta) := tanh_pos_of_pos (mul_pos hb h0)
  have t2 : 0 < Real.tanh (beta * (1 - eta)) :=
    tanh_pos_of_pos (mul_pos hb (by linarith))
  linarith

/-- C1: `operator_proj rho eta beta N` applies the scalar mapping
`projF eta beta` element-wise to `rho` exactly `N` times, leaving the
dimensions unchanged; at the python default arguments `eta=0.5`, `beta=100`,
`N=1` it performs a single element-wise application of `projF 0.5 100`. -/
theorem operator_proj_applies_f_N_times (rho : Arr) (eta beta : ℝ) (N : ℕ) :
    (operator_proj rho eta beta N =
      { rows := rho.rows
        cols := rho.cols
        entry := fun i j => (projF eta beta)^[N] (rho.entry i j) }) ∧
    operator_proj rho (0.5) 100 1 =
      { rows := rho.rows
        cols := rho.cols
        entry := fun i j => projF (0.5) 100 (rho.entry i j) } := by
  refine ⟨operator_proj_eq_iter rho eta beta N, ?_⟩
  rw [operator_proj_eq_iter]
  simp only [Function.iterate_one]

/-- C7: for fixed `eta` in `(0,1)` and `beta > 0`, a single projection pass
is monotone non-decreasing in the input entry; every output entry lies
strictly between `projLo` and `projHi`, the two end points of the formula's
output range; an input entry exactly equal to `eta` is sent to the midpoint
`(projLo + projHi)/2` of that range, which is exactly `1/2` when
`eta = 1/2`. -/
theorem operator_proj_single_pass_monotone_midpoint
    (eta beta : ℝ) (h0 : 0 < eta) (h1 : eta < 1) (hb : 0 < beta)
    (A B : Arr) (i j : ℕ) :
    (A.entry i j ≤ B.entry i j →
      (operator_proj A eta beta 1).entry i j ≤
        (operator_proj B eta beta 1).entry i j) ∧
    (projLo eta beta < (operator_proj A eta beta 1).entry i j ∧
      (operator_proj A eta beta 1).entry i j < projHi eta beta) ∧
    (A.entry i j = eta →
      (operator_proj A eta beta 1).entry i j =
        (projLo eta beta + projHi eta beta) / 2) ∧
    (A.entry i j = eta → eta = 1 / 2 →
      (operator_proj A eta beta 1).entry i j = 1 / 2) := by
  have hD : 0 < projDen eta beta := projDen_pos h0 h1 hb
  have hD' : 0 < Real.tanh (beta * eta) + Real.tanh (beta * (1 - eta)) := hD
  have hentry : ∀ C : Arr,
      (operator_proj C eta beta 1).entry i j = projF eta beta (C.entry i j) := by
    intro C
    rw [operator_proj_entry, Function.iterate_one]
  refine ⟨?_, ⟨?_, ?_⟩, ?_, ?_⟩
  · intro hab
    rw [hentry, hentry]
    unfold projF
    have hnum : Real.tanh (beta * (A.entry i j - eta)) ≤
        Real.tanh (beta * (B.entry i j - eta)) :=
      tanh_mono (by nlinarith)
    exact (div_le_div_iff_of_pos_right hD').mpr (by linarith)
  · rw [hentry]
    unfold projF projLo projDen
    have := neg_one_lt_tanh (beta * (A.entry i j - eta))
    exact (div_lt_div_iff_of_pos_right hD').mpr (by linarith)
  · rw [hentry]
    unfold projF projHi projDen
    have := tanh_lt_one (beta * (A.entry i j - eta))
    exact (div_lt_div_iff_of_pos_right hD').mpr (by linarith)
  · intro hA
    rw [hentry, hA]
    unfold projF projLo projHi projDen
    rw [show beta * (eta - eta) = 0 by ring, Real.tanh_zero]
    have hne : Real.tanh (beta * eta) + Real.tanh (beta * (1 - eta)) ≠ 0 :=
      ne_of_gt hD'
    field_simp
    ring
  · intro hA he
    subst he
    rw [hentry, hA]
    unfold projF
    rw [show beta * ((1 : ℝ) / 2 - 1 / 2) = 0 by ring, Real.tanh_zero,
      show beta * (1 - (1 : ℝ) / 2) = beta * (1 / 2) by ring]
    have ht : 0 < Real.tanh (beta * (1 / 2)) :=
      tanh_pos_of_pos (mul_pos hb (by norm_num))
    rw [add_zero, div_eq_iff (ne_of_gt (by linarith :
      (0 : ℝ) < Real.tanh (beta * (1 / 2)) + Real.tanh (beta * (1 / 2))))]
    ring

/-- C9: an input entry exactly equal to `0` is mapped to exactly `0` by
`operator_proj` for every `eta`, every `beta` and every number of passes `N`,
because `tanh(beta*(0-eta)) = -tanh(beta*eta)` makes the numerator vanish. -/
theorem operator_proj_zero_entry_fixed (rho : Arr) (eta beta : ℝ)
    (N i j : ℕ) (h : rho.entry i j = 0) :
    (operator_proj rho eta beta N).entry i j = 0 := by
  rw [operator_proj_entry, h]
  induction N with
  | zero => simp
  | succ n ih =>
      rw [Function.iterate_succ_apply', ih]
      unfold projF
      rw [show beta * ((0 : ℝ) - eta) = -(beta * eta) by ring, Real.tanh_neg]
      simp

/-- C10: with `N = 0` the projection loop body never runs and `operator_proj`
returns its input unchanged, for every `rho`, `eta` and `beta`. -/
theorem operator_proj_N_zero_identity (rho : Arr) (eta beta : ℝ) :
    operator_proj rho eta beta 0 = rho := rfl

/-- Concrete one-by-one array with constant entry `1/2`. -/
def cArr7 : Arr :=
  { rows := 1, cols := 1, entry := fun _ _ => 1 / 2 }

theorem operator_proj_single_pass_monotone_midpoint_witness :
    (0 : ℝ) < 1 / 2 ∧ (1 / 2 : ℝ) < 1 ∧ (0 : ℝ) < 100 ∧
    (operator_proj cArr7 (1 / 2) 100 1).entry 0 0 = 1 / 2 :=
  ⟨by norm_num, by norm_num, by norm_num,
    (operator_proj_single_pass_monotone_midpoint (1 / 2) 100 (by norm_num)
      (by norm_num) (by norm_num) cArr7 cArr7 0 0).2.2.2 rfl rfl⟩

/-- Concrete one-by-one array with constant entry `0`. -/
def cArr9 : Arr :=
  { rows := 1, cols := 1, entry := fun _ _ => 0 }

theorem operator_proj_zero_entry_fixed_witness :
    cArr9.entry 0 0 = 0 ∧ (operator_proj cArr9 (1 / 2) 100 3).entry 0 0 = 0 :=
  ⟨rfl, operator_proj_zero_entry_fixed cArr9 (1 / 2) 100 3 0 0 rfl⟩

/-- Concrete one-by-one design array with entry `1`. -/
def cRho3 : Arr :=
  { rows := 1, cols := 1, entry := fun _ _ => 1 }

/-- Concrete one-by-one background array with entry `0`. -/
def cBg3 : Arr :=
  { rows := 1, cols := 1, entry := fun _ _ => 0 }

/-- Concrete one-by-one mask array with the nonzero mask value `2`. -/
def cMask3 : Arr :=
  { rows := 1, cols := 1, entry := fun _ _ => 2 }

/-- C3 counterexample: at a cell where the mask holds the nonzero value `2`,
`mask_combine_rho` returns `rho * 2`, not `rho`: the code multiplies by the
mask value itself, so a nonzero mask value is not treated as `1`. -/
theorem mask_combine_rho_nonzero_mask_counterexample :
    cMask3.entry 0 0 ≠ 0 ∧
    (mask_combine_rho cRho3 cBg3 cMask3).entry 0 0 = 2 ∧
    cRho3.entry 0 0 = 1 ∧
    (mask_combine_rho cRho3 cBg3 cMask3).entry 0 0 ≠ cRho3.entry 0 0 := by
  refine ⟨by norm_num [cMask3], ?_, rfl, ?_⟩ <;>
    norm_num [mask_combine_rho, cRho3, cBg3, cMask3]

/-- C3 (amended): `mask_combine_rho` returns `bg_rho` at every cell where
`design_region = 0`, returns `rho * design_region` at every cell where
`design_region` is nonzero, and hence returns `rho` exactly at cells where
`design_region = 1`. -/
theorem mask_combine_rho_cases (rho bg_rho design_region : Arr) (i j : ℕ) :
    (design_region.entry i j = 0 →
      (mask_combine_rho rho bg_rho design_region).entry i j =
        bg_rho.entry i j) ∧
    (design_region.entry i j ≠ 0 →
      (mask_combine_rho rho bg_rho design_region).entry i j =
        rho.entry i j * design_region.entry i j) ∧
    (design_region.entry i j = 1 →
      (mask_combine_rho rho bg_rho design_region).entry i j =
        rho.entry i j) := by
  refine ⟨fun h => ?_, fun h => ?_, fun h => ?_⟩
  · simp [mask_combine_rho, h]
  · simp [mask_combine_rho, h]
  · simp [mask_combine_rho, h]

/-- Concrete one-by-two mask whose first cell is `1` and second cell is `0`. -/
def cMask3b : Arr :=
  { rows := 1, cols := 2, entry := fun _ j => if j = 0 then 1 else 0 }

theorem mask_combine_rho_cases_witness :
    (mask_combine_rho cRho3 cBg3 cMask3b).entry 0 0 = cRho3.entry 0 0 ∧
    (mask_combine_rho cRho3 cBg3 cMask3b).entry 0 1 = cBg3.entry 0 1 :=
  ⟨(mask_combine_rho_cases cRho3 cBg3 cMask3b 0 0).2.2 rfl,
    (mask_combine_rho_cases cRho3 cBg3 cMask3b 0 1).1 rfl⟩

theorem kernelCount_pos (radius : ℕ) : 0 < kernelCount radius := by
  apply Finset.card_pos.mpr
  refine ⟨(radius, radius), Finset.mem_filter.mpr ⟨?_, ?_⟩⟩
  · unfold kernelIdx
    rw [Finset.mem_product]
    constructor <;> (rw [Finset.mem_range]; omega)
  · show inKernelDisk radius radius radius
    unfold inKernelDisk
    rw [sub_self]
    have h1 : (0 : ℤ) < ((radius : ℤ) + 1) ^ 2 := by positivity
    nlinarith

/-- C4: `create_blur_kernel radius` is a pure function of the radius, has
shape `(2*radius+1, 2*radius+1)`, and its entries sum exactly to `1` (the
floating-tolerance clause of the claim is exact equality in real
arithmetic). -/
theorem create_blur_kernel_shape_sum (radius : ℕ) :
    (create_blur_kernel radius).rows = 2 * radius + 1 ∧
    (create_blur_kernel radius).cols = 2 * radius + 1 ∧
    ∑ i ∈ Finset.range (2 * radius + 1), ∑ j ∈ Finset.range (2 * radius + 1),
      (create_blur_kernel radius).entry i j = 1 := by
  refine ⟨rfl, rfl, ?_⟩
  have hpos := kernelCount_pos radius
  have hne : (kernelCount radius : ℝ) ≠ 0 := Nat.cast_ne_zero.mpr (by omega)
  have hstep :
      ∑ i ∈ Finset.range (2 * radius + 1), ∑ j ∈ Finset.range (2 * radius + 1),
        (create_blur_kernel radius).entry i j =
      (∑ x ∈ kernelIdx radius,
        if inKernelDisk radius x.1 x.2 then (1 : ℝ) else 0) /
          (kernelCount radius : ℝ) := by
    rw [Finset.sum_div]
    unfold kernelIdx
    rw [← Finset.sum_product']
    rfl
  rw [hstep]
  have hcard :
      (∑ x ∈ kernelIdx radius,
        if inKernelDisk radius x.1 x.2 then (1 : ℝ) else 0) =
      (kernelCount radius : ℝ) := by
    rw [Finset.sum_boole]
    rfl
  rw [hcard, div_self hne]

/-- Concrete non-empty one-by-one array used at the `radius = 0` boundary. -/
def cRho5 : Arr :=
  { rows := 1, cols := 1, entry := fun _ _ => 1 }

/-- C5 counterexample: at `radius = 0` the slice `[0:-0]` is empty, so the
blurred output of a non-empty `1 x 1` array has `0` rows, not the input
shape. -/
theorem operator_blur_radius_zero_shape_counterexample :
    (operator_blur cRho5 0 1).rows ≠ cRho5.rows := by
  have h : (operator_blur cRho5 0 1).rows = 0 := rfl
  rw [h]
  decide

/-- C5 (amended, restricted to `radius ≥ 1`): `operator_blur rho radius N`
is exactly `N` iterations of full-mode convolution with the radius-derived
kernel followed by cropping `radius` pixels from each border on both axes,
and for `radius ≥ 1` the output dimensions equal the input dimensions. -/
theorem operator_blur_iterates_and_preserves_shape
    (rho : Arr) (radius N : ℕ) (hr : 1 ≤ radius) :
    operator_blur rho radius N = (blurStep radius)^[N] rho ∧
    (operator_blur rho radius N).rows = rho.rows ∧
    (operator_blur rho radius N).cols = rho.cols :=
  ⟨operator_blur_eq_iter rho radius N,
    operator_blur_rows rho radius N hr,
    operator_blur_cols rho radius N hr⟩

theorem operator_blur_iterates_and_preserves_shape_witness :
    1 ≤ 1 ∧
    (operator_blur cRho5 1 1 = (blurStep 1)^[1] cRho5 ∧
      (operator_blur cRho5 1 1).rows = cRho5.rows ∧
      (operator_blur cRho5 1 1).cols = cRho5.cols) :=
  ⟨le_refl 1, operator_blur_iterates_and_preserves_shape cRho5 1 1 (le_refl 1)⟩

/-- Concrete non-empty one-by-one array holding the value `1.0`. -/
def cRho6 : Arr :=
  { rows := 1, cols := 1, entry := fun _ _ => 1 }

/-- C6: evaluation of the code at the failing input.  The claim says
`operator_blur(rho, 0, 1)` returns `rho` unchanged, and the kernel at
`radius = 0` is indeed the identity `1 x 1` kernel, but the python crop
`[0:-0, 0:-0]` produces an empty array: on a `1 x 1` input the result has
`0` rows and `0` columns. -/
theorem operator_blur_radius_zero_returns_empty :
    cRho6.rows = 1 ∧ cRho6.cols = 1 ∧
    (operator_blur cRho6 0 1).rows = 0 ∧
    (operator_blur cRho6 0 1).cols = 0 :=
  ⟨rfl, rfl, rfl, rfl⟩

/-- C2: for same-shape inputs and `radius ≥ 1`, the parameterization output
has the shape of `rho`, and at every cell where `design_region = 0` it equals
`epsr_min + (epsr_max - epsr_min) * bg_rho` exactly, because the final
re-combine restores `bg_rho` before the linear rescale. -/
theorem epsr_parameterization_shape_background
    (rho bg_rho design_region : Arr) (epsr_min epsr_max : ℝ)
    (radius N_blur : ℕ) (beta eta : ℝ) (N_proj : ℕ)
    (hbr : bg_rho.rows = rho.rows) (hbc : bg_rho.cols = rho.cols)
    (hdr : design_region.rows = rho.rows) (hdc : design_region.cols = rho.cols)
    (hr : 1 ≤ radius) :
    (epsr_parameterization rho bg_rho design_region epsr_min epsr_max radius
        N_blur beta eta N_proj).rows = rho.rows ∧
    (epsr_parameterization rho bg_rho design_region epsr_min epsr_max radius
        N_blur beta eta N_proj).cols = rho.cols ∧
    ∀ i j, design_region.entry i j = 0 →
      (epsr_parameterization rho bg_rho design_region epsr_min epsr_max radius
          N_blur beta eta N_proj).entry i j =
        epsr_min + (epsr_max - epsr_min) * bg_rho.entry i j := by
  refine ⟨?_, ?_, ?_⟩
  · have e1 : (epsr_parameterization rho bg_rho design_region epsr_min epsr_max
        radius N_blur beta eta N_proj).rows =
        (operator_proj (operator_blur (mask_combine_rho rho bg_rho
          design_region) radius N_blur) eta beta N_proj).rows := rfl
    rw [e1, operator_proj_rows, operator_blur_rows _ _ _ hr]
    rfl
  · have e1 : (epsr_parameterization rho bg_rho design_region epsr_min epsr_max
        radius N_blur beta eta N_proj).cols =
        (operator_proj (operator_blur (mask_combine_rho rho bg_rho
          design_region) radius N_blur) eta beta N_proj).cols := rfl
    rw [e1, operator_proj_cols, operator_blur_cols _ _ _ hr]
    rfl
  · intro i j h
    have e1 : (epsr_parameterization rho bg_rho design_region epsr_min epsr_max
        radius N_blur beta eta N_proj).entry i j =
        epsr_min + (epsr_max - epsr_min) *
          ((mask_combine_rho (operator_proj (operator_blur (mask_combine_rho
            rho bg_rho design_region) radius N_blur) eta beta N_proj) bg_rho
            design_region).entry i j) := rfl
    rw [e1]
    simp [mask_combine_rho, h]

/-- Concrete one-by-one design density for the pipeline witness. -/
def cRho2 : Arr :=
  { rows := 1, cols := 1, entry := fun _ _ => 1 }

/-- Concrete one-by-one background density for the pipeline witness. -/
def cBg2 : Arr :=
  { rows := 1, cols := 1, entry := fun _ _ => 1 / 4 }

/-- Concrete one-by-one all-background mask for the pipeline witness. -/
def cMask2 : Arr :=
  { rows := 1, cols := 1, entry := fun _ _ => 0 }

theorem epsr_parameterization_shape_background_witness :
    (epsr_parameterization cRho2 cBg2 cMask2 1 10 1 1 100 (1 / 2) 1).rows =
      cRho2.rows ∧
    (epsr_parameterization cRho2 cBg2 cMask2 1 10 1 1 100 (1 / 2) 1).cols =
      cRho2.cols ∧
    (epsr_parameterization cRho2 cBg2 cMask2 1 10 1 1 100 (1 / 2) 1).entry 0 0 =
      1 + (10 - 1) * cBg2.entry 0 0 :=
  have h := epsr_parameterization_shape_background cRho2 cBg2 cMask2 1 10 1 1
    100 (1 / 2) 1 rfl rfl rfl rfl (le_refl 1)
  ⟨h.1, h.2.1, h.2.2 0 0 rfl⟩

/-- Decimal digit list (least significant digit first) underlying the python
frame file names: `[0]` for `0`, otherwise `Nat.digits 10 n`. -/
def decDigits (n : ℕ) : List ℕ :=
  if n = 0 then [0] else Nat.digits 10 n

theorem toDigitsCore_spec :
    ∀ (f n : ℕ) (acc : List Char), n < f →
      Nat.toDigitsCore 10 f n acc =
        ((decDigits n).reverse.map Nat.digitChar) ++ acc := by
  intro f
  induction f with
  | zero => intro n acc h; omega
  | succ f ih =>
      intro n acc h
      by_cases h10 : n / 10 = 0
      · have hd : (decDigits n).reverse.map Nat.digitChar =
            [Nat.digitChar (n % 10)] := by
          unfold decDigits
          by_cases hn : n = 0
          · subst hn; norm_num
          · rw [if_neg hn,
              Nat.digits_def' (by norm_num : (1 : ℕ) < 10)
                (Nat.pos_of_ne_zero hn), h10]
            simp
        simp only [Nat.toDigitsCore]
        rw [if_pos h10, hd]
        simp
      · have hn : n ≠ 0 := by
          intro hz
          rw [hz] at h10
          exact h10 rfl
        have hlt : n / 10 < f := by
          have := Nat.div_lt_self (Nat.pos_of_ne_zero hn)
            (by norm_num : 1 < 10)
          omega
        simp only [Nat.toDigitsCore]
        rw [if_neg h10, ih (n / 10) (Nat.digitChar (n % 10) :: acc) hlt]
        have hdig : decDigits n = n % 10 :: decDigits (n / 10) := by
          unfold decDigits
          rw [if_neg hn, if_neg h10,
            Nat.digits_def' (by norm_num : (1 : ℕ) < 10)
              (Nat.pos_of_ne_zero hn)]
        rw [hdig]
        simp

theorem natRepr_data (n : ℕ) :
    (Nat.repr n).data = (decDigits n).reverse.map Nat.digitChar := by
  show Nat.toDigitsCore 10 (n + 1) n [] = _
  rw [toDigitsCore_spec (n + 1) n [] (Nat.lt_succ_self n), List.append_nil]

theorem digitChar_inj_lt {a b : ℕ} (ha : a < 10) (hb : b < 10)
    (h : Nat.digitChar a = Nat.digitChar b) : a = b := by
  have key : ∀ x y : Fin 10, Nat.digitChar x.val = Nat.digitChar y.val →
      x = y := by decide
  have := key ⟨a, ha⟩ ⟨b, hb⟩ h
  exact congrArg Fin.val this

theorem map_digitChar_inj :
    ∀ l1 l2 : List ℕ, (∀ d ∈ l1, d < 10) → (∀ d ∈ l2, d < 10) →
      l1.map Nat.digitChar = l2.map Nat.digitChar → l1 = l2 := by
  intro l1
  induction l1 with
  | nil =>
      intro l2 _ _ h
      cases l2 with
      | nil => rfl
      | cons b t => simp at h
  | cons a t ih =>
      intro l2 h1 h2 h
      cases l2 with
      | nil => simp at h
      | cons b t2 =>
          simp only [List.map_cons, List.cons.injEq] at h
          have hab : a = b :=
            digitChar_inj_lt (h1 a (List.mem_cons_self a t))
              (h2 b (List.mem_cons_self b t2)) h.1
          rw [hab, ih t2 (fun d hd => h1 d (List.mem_cons_of_mem _ hd))
            (fun d hd => h2 d (List.mem_cons_of_mem _ hd)) h.2]

theorem decDigits_lt (n : ℕ) : ∀ d ∈ decDigits n, d < 10 := by
  intro d hd
  unfold decDigits at hd
  by_cases hn : n = 0
  · rw [if_pos hn] at hd
    simp at hd
    omega
  · rw [if_neg hn] at hd
    exact Nat.digits_lt_base (by norm_num) hd

theorem ofDigits_decDigits (n : ℕ) : Nat.ofDigits 10 (decDigits n) = n := by
  unfold decDigits
  by_cases hn : n = 0
  · rw [if_pos hn, hn]
    simp [Nat.ofDigits]
  · rw [if_neg hn]
    exact Nat.ofDigits_digits 10 n

theorem natReprData_inj {a b : ℕ}
    (h : (Nat.repr a).data = (Nat.repr b).data) : a = b := by
  rw [natRepr_data, natRepr_data] at h
  have hrev : (decDigits a).reverse = (decDigits b).reverse :=
    map_digitChar_inj _ _
      (fun d hd => decDigits_lt a d (List.mem_reverse.mp hd))
      (fun d hd => decDigits_lt b d (List.mem_reverse.mp hd)) h
  have hdd : decDigits a = decDigits b := by
    have := congrArg List.reverse hrev
    simpa using this
  calc a = Nat.ofDigits 10 (decDigits a) := (ofDigits_decDigits a).symm
    _ = Nat.ofDigits 10 (decDigits b) := by rw [hdd]
    _ = b := ofDigits_decDigits b

/-- Staging path `./gif/frames/{frame}.png` of one animation frame, exactly
as interpolated by the python f-string. -/
def framePath (frame : ℕ) : String :=
  "./gif/frames/" ++ Nat.repr frame ++ ".png"

/-- Output path `./gif/{gif_name}.gif` of the assembled animation. -/
def gifPath (gif_name : String) : String :=
  "./gif/" ++ gif_name ++ ".gif"

theorem framePath_injective {a b : ℕ} (h : framePath a = framePath b) :
    a = b := by
  unfold framePath at h
  have hd := congrArg String.data h
  simp only [String.data_append, List.append_assoc] at hd
  have h1 := List.append_cancel_left hd
  have h2 := (List.append_inj' h1 rfl).1
  exact natReprData_inj h2

theorem gifPath_ne_framePath (gif_name : String) (frame : ℕ) :
    gifPath gif_name ≠ framePath frame := by
  intro h
  unfold gifPath framePath at h
  have hd := congrArg String.data h
  simp only [String.data_append] at hd
  have h2 := (List.append_inj' hd rfl).2
  exact absurd h2 (by decide)

/-- Filesystem effects performed by `animate`: a `plt.savefig` frame write,
the gif assembly (recording the source files it reads, in order), and an
`os.remove`. -/
inductive FsOp where
  | writeFrame : String → FsOp
  | writeGif : String → List String → FsOp
  | removeFile : String → FsOp

/-- The list `filenames` accumulated by the frame loop of `animate`. -/
def animate_filenames (frames_num : ℕ) : List String :=
  (List.range frames_num).map framePath

/-- Modelled filesystem trace of `animate(..., gif_name, frames_num)`: one
write per frame in loop order, then the gif assembly reading the staged
frames in `filenames` order, then `os.remove` over `set(filenames)`,
modelled as the deduplicated list (first-occurrence order; set iteration
order is immaterial to the resulting file state). -/
def animate_trace (gif_name : String) (frames_num : ℕ) : List FsOp :=
  (animate_filenames frames_num).map FsOp.writeFrame
    ++ [FsOp.writeGif (gifPath gif_name) (animate_filenames frames_num)]
    ++ (animate_filenames frames_num).dedup.map FsOp.removeFile

/-- Effect of one filesystem operation on the set of existing files. -/
def applyFsOp (s : Finset String) : FsOp → Finset String
  | FsOp.writeFrame p => insert p s
  | FsOp.writeGif p _ => insert p s
  | FsOp.removeFile p => s.erase p

/-- Runs a trace of filesystem operations from an initial set of files. -/
def runFs (s : Finset String) (ops : List FsOp) : Finset String :=
  ops.foldl applyFsOp s

theorem runFs_append (s : Finset String) (l1 l2 : List FsOp) :
    runFs s (l1 ++ l2) = runFs (runFs s l1) l2 :=
  List.foldl_append applyFsOp s l1 l2

theorem runFs_writeFrames (s : Finset String) (l : List String) :
    runFs s (l.map FsOp.writeFrame) = s ∪ l.toFinset := by
  induction l generalizing s with
  | nil => simp [runFs]
  | cons a t ih =>
      have hstep : runFs s ((a :: t).map FsOp.writeFrame) =
          runFs (insert a s) (t.map FsOp.writeFrame) := rfl
      rw [hstep, ih]
      ext x
      simp only [Finset.mem_union, Finset.mem_insert, List.toFinset_cons]
      tauto

theorem runFs_removeFiles (s : Finset String) (l : List String) :
    runFs s (l.map FsOp.removeFile) = s \ l.toFinset := by
  induction l generalizing s with
  | nil => simp [runFs]
  | cons a t ih =>
      have hstep : runFs s ((a :: t).map FsOp.removeFile) =
          runFs (s.erase a) (t.map FsOp.removeFile) := rfl
      rw [hstep, ih]
      ext x
      simp only [Finset.mem_sdiff, Finset.mem_erase, List.toFinset_cons,
        Finset.mem_insert]
      tauto

theorem framePaths_nodup (frames_num : ℕ) :
    (animate_filenames frames_num).Nodup :=
  (List.nodup_range frames_num).map
    (fun _ _ hab => framePath_injective hab)

/-- C8: for `frames_num ≥ 1`, `animate` stages exactly `frames_num` distinct
frame files `./gif/frames/0.png` through `./gif/frames/{frames_num-1}.png`,
assembles exactly those files in frame order into the single output
`./gif/{gif_name}.gif`, and then removes every staged frame file: starting
from any set `S` of existing files, the files afterward are `S` minus the
staged frames plus exactly the one output file. -/
theorem animate_stages_assembles_cleans (gif_name : String) (frames_num : ℕ)
    (S : Finset String) (h : 1 ≤ frames_num) :
    (animate_filenames frames_num).length = frames_num ∧
    (animate_filenames frames_num).Nodup ∧
    animate_trace gif_name frames_num =
      (animate_filenames frames_num).map FsOp.writeFrame
        ++ [FsOp.writeGif (gifPath gif_name) (animate_filenames frames_num)]
        ++ (animate_filenames frames_num).map FsOp.removeFile ∧
    runFs S (animate_trace gif_name frames_num) =
      insert (gifPath gif_name)
        (S \ (animate_filenames frames_num).toFinset) ∧
    gifPath gif_name ∈ runFs S (animate_trace gif_name frames_num) ∧
    ∀ p ∈ animate_filenames frames_num,
      p ∉ runFs S (animate_trace gif_name frames_num) := by
  have hnodup : (animate_filenames frames_num).Nodup :=
    framePaths_nodup frames_num
  have hlen : (animate_filenames frames_num).length = frames_num := by
    simp [animate_filenames]
  have htrace : animate_trace gif_name frames_num =
      (animate_filenames frames_num).map FsOp.writeFrame
        ++ [FsOp.writeGif (gifPath gif_name) (animate_filenames frames_num)]
        ++ (animate_filenames frames_num).map FsOp.removeFile := by
    unfold animate_trace
    rw [hnodup.dedup]
  have hg : gifPath gif_name ∉ (animate_filenames frames_num).toFinset := by
    rw [List.mem_toFinset]
    intro hmem
    obtain ⟨i, _, hi⟩ := List.mem_map.mp hmem
    exact gifPath_ne_framePath gif_name i hi.symm
  have hfinal : runFs S (animate_trace gif_name frames_num) =
      insert (gifPath gif_name)
        (S \ (animate_filenames frames_num).toFinset) := by
    rw [htrace, runFs_append, runFs_append, runFs_writeFrames,
      runFs_removeFiles]
    have hmid : runFs (S ∪ (animate_filenames frames_num).toFinset)
        [FsOp.writeGif (gifPath gif_name) (animate_filenames frames_num)] =
        insert (gifPath gif_name)
          (S ∪ (animate_filenames frames_num).toFinset) := rfl
    rw [hmid]
    ext x
    simp only [Finset.mem_sdiff, Finset.mem_insert, Finset.mem_union]
    constructor
    · rintro ⟨rfl | hS | hF, hnF⟩
      · exact Or.inl rfl
      · exact Or.inr ⟨hS, hnF⟩
      · exact absurd hF hnF
    · rintro (rfl | ⟨hS, hnF⟩)
      · exact ⟨Or.inl rfl, hg⟩
      · exact ⟨Or.inr (Or.inl hS), hnF⟩
  refine ⟨hlen, hnodup, htrace, hfinal, ?_, ?_⟩
  · rw [hfinal]
    exact Finset.mem_insert_self _ _
  · intro p hp
    rw [hfinal]
    intro hmem
    rcases Finset.mem_insert.mp hmem with hpg | hpd
    · obtain ⟨i, _, hi⟩ := List.mem_map.mp hp
      exact gifPath_ne_framePath gif_name i ((hi.trans hpg).symm)
    · exact (Finset.mem_sdiff.mp hpd).2 (List.mem_toFinset.mpr hp)

theorem animate_stages_assembles_cleans_witness :
    1 ≤ 4 ∧
    (animate_filenames 4).length = 4 ∧
    gifPath ("mygif") ∈ runFs ∅ (animate_trace ("mygif") 4) ∧
    framePath 0 ∉ runFs ∅ (animate_trace ("mygif") 4) :=
  have h := animate_stages_assembles_cleans ("mygif") 4 ∅ (by norm_num)
  ⟨by norm_num, h.1, h.2.2.2.2.1,
    h.2.2.2.2.2 (framePath 0)
      (List.mem_map.mpr ⟨0, List.mem_range.mpr (by norm_num), rfl⟩)⟩
